import Mathlib

set_option autoImplicit false

namespace Humann

/-! Character-list model of Python strings. Python `str` values are modelled as
`List Char`; `str.split(sep)` with an explicit one-character separator keeps
empty fields and is modelled by `splitOnChar`, and `sep.join` by `joinChar`. -/

abbrev PyStr := List Char

/-- Model of Python `s.split(sep)` for a single-character separator `sep`:
splits at every occurrence of the separator, keeping empty fields
(`"".split(" ") == [""]`, `"a  b".split(" ") == ["a","","b"]`). -/
def splitOnChar (sep : Char) : List Char → List (List Char)
  | [] => [[]]
  | c :: rest =>
    if c = sep then [] :: splitOnChar sep rest
    else
      match splitOnChar sep rest with
      | [] => [[c]]
      | t :: ts => (c :: t) :: ts

/-- Model of Python `sep.join(tokens)` for a single-character separator. -/
def joinChar (sep : Char) : List (List Char) → List Char
  | [] => []
  | [t] => t
  | t :: t2 :: ts => t ++ sep :: joinChar sep (t2 :: ts)

/-- Decimal digit character for a digit value below ten. -/
def digitChar (d : Nat) : Char :=
  if d = 0 then '0' else if d = 1 then '1' else if d = 2 then '2'
  else if d = 3 then '3' else if d = 4 then '4' else if d = 5 then '5'
  else if d = 6 then '6' else if d = 7 then '7' else if d = 8 then '8'
  else '9'

/-- Fuel-driven accumulation of the decimal digits of a number, most
significant first. -/
def natToCharsAux : Nat → Nat → List Char
  | 0, _ => []
  | _ + 1, 0 => []
  | fuel + 1, n => natToCharsAux fuel (n / 10) ++ [digitChar (n % 10)]

/-- Model of Python `str(n)` for a natural number: its decimal digits. -/
def natToChars (n : Nat) : List Char :=
  if n = 0 then ['0'] else natToCharsAux (n + 1) n

end Humann

namespace Humann

/-! Embedding of src/util/create_uniref_database.py. The filtering and
annotation logic operates on sequence names split on the space delimiter
(`UNIREF_DELIMITER = " "`, id at index 0) and appends gene lengths with the
delimiter `"|"` (`ANNOTATION_DELIMITER`) at index 0. -/

/-- Embedding of `add_gene_length(sequence_name, sequence)` from
src/util/create_uniref_database.py: the gene length is `len(sequence)*3`
(the sequence counts codons), and it is appended to token 0 of the
space-split name with the `"|"` delimiter before rejoining on spaces. -/
def add_gene_length (sequence_name sequence : PyStr) : PyStr :=
  let gene_length := sequence.length * 3
  joinChar ' '
    (match splitOnChar ' ' sequence_name with
     | [] => []
     | t :: ts => (t ++ '|' :: natToChars gene_length) :: ts)

/-- Lowercasing used to model `re.IGNORECASE`. -/
def lowerChars (s : PyStr) : PyStr := s.map Char.toLower

/-- Whether the first list occurs at the head of the second. -/
def leadsWith : List Char → List Char → Bool
  | [], _ => true
  | _ :: _, [] => false
  | a :: xs, b :: ys => a == b && leadsWith xs ys

/-- Whether the pattern occurs contiguously anywhere in the text. -/
def occursIn (pat : PyStr) : PyStr → Bool
  | [] => pat.isEmpty
  | c :: rest => leadsWith pat (c :: rest) || occursIn pat rest

/-- Model of `re.search(pat, s, re.IGNORECASE)` for a literal (metacharacter
free) pattern, as used by `check_sequence`: case-insensitive substring
search, returning whether a match exists. -/
def re_search_ignorecase (pat s : PyStr) : Bool :=
  occursIn (lowerChars pat) (lowerChars s)

/-- Python truthiness of the optional `filter` argument: `None` and the
empty string are falsy, so they disable the string filter. -/
def truthyFilter : Option PyStr → Bool
  | none => false
  | some f => !f.isEmpty

/-- Embedding of `check_sequence(sequence_name, uniref_pathways, filter,
filter_ids)` from src/util/create_uniref_database.py. The uniref id is
token 0 of the space-split name (`UNIREF_ID_INDEX = 0`); `uniref_pathways`
and `filter_ids` are Python dicts used only for key membership, modelled as
lists of keys. Returns one of "store", "remove", "store_pathways". -/
def check_sequence (sequence_name : PyStr) (uniref_pathways : List PyStr)
    (filter : Option PyStr) (filter_ids : List PyStr) : String :=
  let tokens := splitOnChar ' ' sequence_name
  let v :=
    if truthyFilter filter then
      if re_search_ignorecase (filter.getD []) sequence_name then
        if tokens.headI ∈ uniref_pathways then "store_pathways" else "remove"
      else "store"
    else "store"
  if filter_ids.isEmpty then v
  else if tokens.headI ∈ filter_ids then
    if tokens.headI ∈ uniref_pathways then "store_pathways" else "remove"
  else v

/-- The acceptance test applied by `process_fasta_file`: a sequence is kept
exactly when Python's `"store" in filter_type` holds for the value returned
by `check_sequence`. -/
def retained (filter_type : String) : Bool :=
  occursIn "store".toList filter_type.toList

/-- Whether the name matches the string filter: a filter is in use (not
`None`, not empty, per Python truthiness) and the case-insensitive search
succeeds. -/
def matchesFilter (filter : Option PyStr) (name : PyStr) : Bool :=
  truthyFilter filter && re_search_ignorecase (filter.getD []) name

theorem splitOnChar_ne_nil (sep : Char) (s : List Char) : splitOnChar sep s ≠ [] := by
  induction s with
  | nil => simp [splitOnChar]
  | cons c rest ih =>
    simp only [splitOnChar]
    split
    · simp
    · cases h : splitOnChar sep rest <;> simp

theorem sep_not_mem_of_mem_splitOnChar (sep : Char) :
    ∀ (s t : List Char), t ∈ splitOnChar sep s → sep ∉ t := by
  intro s
  induction s with
  | nil =>
    intro t ht
    simp [splitOnChar] at ht
    simp [ht]
  | cons c rest ih =>
    intro t ht
    by_cases hc : c = sep
    · rw [splitOnChar, if_pos hc] at ht
      rcases List.mem_cons.mp ht with h | h
      · simp [h]
      · exact ih t h
    · rw [splitOnChar, if_neg hc] at ht
      cases h : splitOnChar sep rest with
      | nil => exact absurd h (splitOnChar_ne_nil sep rest)
      | cons t0 ts =>
        rw [h] at ht
        rcases List.mem_cons.mp ht with h1 | h1
        · subst h1
          intro hm
          rcases List.mem_cons.mp hm with h2 | h2
          · exact hc h2.symm
          · exact ih t0 (h ▸ List.mem_cons_self t0 ts) h2
        · exact ih t (h ▸ List.mem_cons_of_mem t0 h1)

theorem splitOnChar_sepFree (sep : Char) (t : List Char) (h : sep ∉ t) :
    splitOnChar sep t = [t] := by
  induction t with
  | nil => rfl
  | cons c rest ih =>
    have hc : ¬ c = sep := fun hcc => h (hcc ▸ List.mem_cons_self c rest)
    rw [splitOnChar, if_neg hc, ih (fun hm => h (List.mem_cons_of_mem c hm))]

theorem splitOnChar_append (sep : Char) (t s : List Char) (h : sep ∉ t) :
    splitOnChar sep (t ++ sep :: s) = t :: splitOnChar sep s := by
  induction t with
  | nil => simp [splitOnChar]
  | cons c rest ih =>
    have hc : ¬ c = sep := fun hcc => h (hcc ▸ List.mem_cons_self c rest)
    rw [List.cons_append, splitOnChar, if_neg hc,
      ih (fun hm => h (List.mem_cons_of_mem c hm))]

theorem splitOnChar_joinChar (sep : Char) :
    ∀ ts : List (List Char), ts ≠ [] → (∀ t ∈ ts, sep ∉ t) →
      splitOnChar sep (joinChar sep ts) = ts := by
  intro ts
  induction ts with
  | nil => intro h; exact absurd rfl h
  | cons t rest ih =>
    intro _ hfree
    cases rest with
    | nil =>
      rw [joinChar]
      exact splitOnChar_sepFree sep t (hfree t (List.mem_cons_self t []))
    | cons t2 ts2 =>
      rw [joinChar, splitOnChar_append sep t _ (hfree t (List.mem_cons_self t _)),
        ih (List.cons_ne_nil t2 ts2) (fun u hu => hfree u (List.mem_cons_of_mem t hu))]

theorem digitChar_ne_space (d : Nat) : digitChar d ≠ ' ' := by
  unfold digitChar
  repeat' split
  all_goals decide

theorem space_not_mem_natToCharsAux : ∀ fuel n : Nat, ' ' ∉ natToCharsAux fuel n := by
  intro fuel
  induction fuel with
  | zero => intro n; simp [natToCharsAux]
  | succ f ih =>
    intro n
    cases n with
    | zero => simp [natToCharsAux]
    | succ m =>
      have hunfold : natToCharsAux (f + 1) (m + 1) =
          natToCharsAux f ((m + 1) / 10) ++ [digitChar ((m + 1) % 10)] := rfl
      rw [hunfold]
      intro hm
      rcases List.mem_append.mp hm with h | h
      · exact ih _ h
      · rcases List.mem_cons.mp h with h1 | h1
        · exact digitChar_ne_space _ h1.symm
        · simp at h1

theorem space_not_mem_natToChars (n : Nat) : ' ' ∉ natToChars n := by
  unfold natToChars
  split
  · decide
  · exact space_not_mem_natToCharsAux _ _

/-- C9: `add_gene_length` returns the name with only its first
space-delimited token changed, that token being extended with the
delimiter `"|"` followed by the decimal representation of three times the
length of the sequence; all other space-delimited tokens and their order
are unchanged. -/
theorem add_gene_length_changes_only_first_token (name seq : PyStr) :
    ∃ t ts, splitOnChar ' ' name = t :: ts ∧
      splitOnChar ' ' (add_gene_length name seq) =
        (t ++ '|' :: natToChars (seq.length * 3)) :: ts := by
  cases h : splitOnChar ' ' name with
  | nil => exact absurd h (splitOnChar_ne_nil ' ' name)
  | cons t ts =>
    refine ⟨t, ts, rfl, ?_⟩
    have hdef : add_gene_length name seq =
        joinChar ' ' ((t ++ '|' :: natToChars (seq.length * 3)) :: ts) := by
      simp only [add_gene_length, h]
    rw [hdef]
    apply splitOnChar_joinChar
    · simp
    · intro u hu
      rcases List.mem_cons.mp hu with h1 | h1
      · subst h1
        intro hm
        rcases List.mem_append.mp hm with h2 | h2
        · exact sep_not_mem_of_mem_splitOnChar ' ' name t
            (h ▸ List.mem_cons_self t ts) h2
        · rcases List.mem_cons.mp h2 with h3 | h3
          · exact absurd h3.symm (by decide)
          · exact space_not_mem_natToChars _ h3
      · exact sep_not_mem_of_mem_splitOnChar ' ' name u
          (h ▸ List.mem_cons_of_mem t h1)

/-- C10: for every sequence name whose uniref id (first space-delimited
token) is a key of the pathways mapping, `check_sequence` never returns
"remove" (so `process_fasta_file`, which keeps a sequence exactly when
"store" occurs in the returned value, always retains it); it returns
"store_pathways" when the name matches the filter (a filter being in use
per Python truthiness, i.e. not None and not empty) or the id is in
`filter_ids`, and "store" otherwise. -/
theorem check_sequence_pathways_never_removed
    (name : PyStr) (pathways : List PyStr) (filter : Option PyStr) (ids : List PyStr)
    (hmem : (splitOnChar ' ' name).headI ∈ pathways) :
    check_sequence name pathways filter ids ≠ "remove" ∧
    retained (check_sequence name pathways filter ids) = true ∧
    check_sequence name pathways filter ids =
      (if (matchesFilter filter name || decide ((splitOnChar ' ' name).headI ∈ ids))
       then "store_pathways" else "store") := by
  have key : check_sequence name pathways filter ids =
      (if (matchesFilter filter name || decide ((splitOnChar ' ' name).headI ∈ ids))
       then "store_pathways" else "store") := by
    by_cases h1 : truthyFilter filter = true
    · by_cases h2 : re_search_ignorecase (filter.getD []) name = true
      · cases ids with
        | nil => simp [check_sequence, matchesFilter, h1, h2, hmem]
        | cons i0 irest =>
          by_cases hin : (splitOnChar ' ' name).headI ∈ i0 :: irest
          · simp [check_sequence, matchesFilter, h1, h2, hmem, hin]
          · simp [check_sequence, matchesFilter, h1, h2, hmem, hin]
      · cases ids with
        | nil => simp [check_sequence, matchesFilter, h1, h2, hmem]
        | cons i0 irest =>
          by_cases hin : (splitOnChar ' ' name).headI ∈ i0 :: irest
          · simp [check_sequence, matchesFilter, h1, h2, hmem, hin]
          · simp [check_sequence, matchesFilter, h1, h2, hmem, hin]
    · cases ids with
      | nil => simp [check_sequence, matchesFilter, h1, hmem]
      | cons i0 irest =>
        by_cases hin : (splitOnChar ' ' name).headI ∈ i0 :: irest
        · simp [check_sequence, matchesFilter, h1, hmem, hin]
        · simp [check_sequence, matchesFilter, h1, hmem, hin]
  refine ⟨?_, ?_, key⟩
  · rw [key]
    split
    · decide
    · decide
  · rw [key]
    split
    · decide
    · decide

/-- Witness for C10 at a concrete uncharacterized UniRef entry whose id is
listed in a pathways database. -/
theorem check_sequence_pathways_never_removed_w :
    ((splitOnChar ' ' "UniRef50_Q4K4N6 uncharacterized protein".toList).headI ∈
        ["UniRef50_Q4K4N6".toList]) ∧
    check_sequence "UniRef50_Q4K4N6 uncharacterized protein".toList
        ["UniRef50_Q4K4N6".toList] (some "unchar".toList) [] ≠ "remove" :=
  ⟨by decide,
    (check_sequence_pathways_never_removed
      "UniRef50_Q4K4N6 uncharacterized protein".toList
      ["UniRef50_Q4K4N6".toList] (some "unchar".toList) [] (by decide)).1⟩

/-! Model of the alignment-result reduction and read-classification
subsystem (`humann2.search.nucleotide.unaligned_reads` together with
`humann2.store.Alignments` and `humann2.store.Reads`). The implementation
files are not part of this source snapshot — only their test suite
(src/humann2/tests/advanced_tests_nucleotide_search.py) is — so the
definitions below are modelled from the specification (§3, §4.1-§4.4).
Floating-point quantities are modelled as rationals, and the configurable
score exponent as a natural number. -/

/-- Modelled from the spec: the consumed configuration of §6 — the e-value
threshold, the identity threshold (percentage scale), and the identity
power used as the score exponent; the implementation reading them from the
shared `humann2.config` module is missing from src/. -/
structure Config where
  evalue_threshold : ℚ
  identity_threshold : ℚ
  identity_power : ℕ
deriving DecidableEq

/-- Modelled from the spec: the alignment-record format tag of §4.2/§9 —
the bowtie2/sam tabular shape, whose records carry no meaningful e-value
and are exempt from e-value filtering, versus the generic blast-style
(blastm8) tabular shape, which applies it; the format dispatch in the
missing `nucleotide.unaligned_reads` is inferred from the input file. -/
inductive AlignFormat
  | sam
  | blastm8
deriving DecidableEq

/-- Whether the format's records carry a meaningful e-value to be compared
against the e-value threshold. -/
def AlignFormat.appliesEvalue : AlignFormat → Bool
  | .sam => false
  | .blastm8 => true

/-- Modelled from the spec: one parsed raw alignment record of §4.2 step 1
— `(query_id, reference_token, percent_identity, alignment_length,
evalue)` — together with the read's sequence, which full-mode Read Stores
buffer; the parsing code in the missing `nucleotide.unaligned_reads` is
not under src/. -/
structure AlignmentRecord where
  query_id : PyStr
  reference_token : PyStr
  percent_identity : ℚ
  alignment_length : ℚ
  evalue : ℚ
  seq : PyStr
deriving DecidableEq

/-- Modelled from the spec: one line of the input stream — a parsed
alignment record, a genuinely unaligned read, or a record whose reference
token cannot be parsed at all (dropped, its query treated as unaligned,
§4.2 step 1 and §7). -/
inductive InputRecord
  | aligned (rec : AlignmentRecord)
  | unaligned (query_id : PyStr) (seq : PyStr)
  | unparseable (query_id : PyStr) (seq : PyStr)
deriving DecidableEq

/-- Modelled from the spec: the immutable Hit record of §3. -/
structure Hit where
  query_id : PyStr
  organism : PyStr
  reference_id : PyStr
  score : ℚ
  normalized_length : ℚ
deriving DecidableEq

/-- The default organism tag used when a reference carries none. -/
def unclassified : PyStr := "unclassified".toList

/-- Model of Python `int(s)` on a digit string: `none` when the token is
empty or holds a non-digit. -/
def charsToNat : List Char → Option Nat
  | [] => none
  | cs => go cs 0
where
  go : List Char → Nat → Option Nat
    | [], acc => some acc
    | c :: rest, acc =>
      if '0' ≤ c ∧ c ≤ '9' then go rest (acc * 10 + (c.toNat - '0'.toNat))
      else none

/-- Modelled from the spec: the Annotation Parser of §4.1 (its
implementation lives in the missing store/search modules). The reference
token concatenates identifier, optional numeric length and optional
organism tag with the fixed `"|"` delimiter; recognized conventions are
`id`, `id|length` and `id|length|organism`. Unknown or malformed
conventions degrade to the defaults `organism = "unclassified"` and no
length, and the parser is a total function (it never raises). -/
def parse_reference_name (token : PyStr) : PyStr × PyStr × Option Nat :=
  match splitOnChar '|' token with
  | [g] => (g, unclassified, none)
  | [g, l] =>
    match charsToNat l with
    | some n => (g, unclassified, some n)
    | none => (token, unclassified, none)
  | [g, l, org] =>
    match charsToNat l with
    | some n => (g, org, some n)
    | none => (token, unclassified, none)
  | _ => (token, unclassified, none)

/-- Whether the reference token follows none of the recognized annotation
conventions (so the Annotation Parser falls back to its defaults). -/
def unknownConvention (token : PyStr) : Bool :=
  match splitOnChar '|' token with
  | [_] => false
  | [_, l] => (charsToNat l).isNone
  | [_, l, _] => (charsToNat l).isNone
  | _ => true

/-- Modelled from the spec: construction of the Hit for an accepted record
(§4.2 step 5): `score = percent_identity ^ identity_power` and
`normalized_length = length/1000` with default `1` when the reference
carries no length annotation (§3). -/
def mkHit (cfg : Config) (rec : AlignmentRecord) : Hit :=
  let p := parse_reference_name rec.reference_token
  { query_id := rec.query_id
    organism := p.2.1
    reference_id := p.1
    score := rec.percent_identity ^ cfg.identity_power
    normalized_length :=
      match p.2.2 with
      | some n => (n : ℚ) / 1000
      | none => 1 }

/-- Modelled from the spec: the threshold checks of §4.2 steps 2-3 —
reject on `evalue > evalue_threshold` only for formats that carry a
meaningful e-value, then reject on `percent_identity <
identity_threshold` unconditionally for every format. -/
def accept (cfg : Config) (fmt : AlignFormat) (rec : AlignmentRecord) : Bool :=
  if fmt.appliesEvalue = true ∧ rec.evalue > cfg.evalue_threshold then false
  else if rec.percent_identity < cfg.identity_threshold then false
  else true

/-- Modelled from the spec: the Alignment Store of §3 — an append-only
mapping from reference id to the ordered list of its Hits (the
implementation, `humann2.store.Alignments`, is not under src/). -/
structure Alignments where
  store : List (PyStr × List Hit)
deriving DecidableEq

/-- The empty Alignment Store. -/
def Alignments.empty : Alignments := ⟨[]⟩

/-- Append a Hit to the ordered list of its reference id, creating the
reference's entry at the end when it is new. -/
def addHitToStore (h : Hit) : List (PyStr × List Hit) → List (PyStr × List Hit)
  | [] => [(h.reference_id, [h])]
  | (r, hs) :: rest =>
    if r = h.reference_id then (r, hs ++ [h]) :: rest
    else (r, hs) :: addHitToStore h rest

/-- Modelled from the spec: insertion into the Alignment Store under the
Hit's reference id (§4.2 step 5); append-only. -/
def Alignments.add (a : Alignments) (h : Hit) : Alignments :=
  ⟨addHitToStore h a.store⟩

/-- Modelled from the spec: `get_hit_list()` — every stored Hit across all
references, grouped by reference (§4.3). -/
def Alignments.get_hit_list (a : Alignments) : List Hit :=
  (a.store.map Prod.snd).flatten

/-- Lookup of one reference's Hit list in the store. -/
def hitsForGeneAux (x : PyStr) : List (PyStr × List Hit) → List Hit
  | [] => []
  | (r, hs) :: rest => if r = x then hs else hitsForGeneAux x rest

/-- Modelled from the spec: `hits_for_gene(reference_id)` — all Hits whose
reference id equals the argument, empty when there are none (§4.3). -/
def Alignments.hits_for_gene (a : Alignments) (x : PyStr) : List Hit :=
  hitsForGeneAux x a.store

/-- Modelled from the spec: `bug_list()` — the distinct organism values
seen across all Hits, each appearing once (§4.3). -/
def Alignments.bug_list (a : Alignments) : List PyStr :=
  (a.get_hit_list.map Hit.organism).dedup

/-- Modelled from the spec: the Read Store of §3 — the set of read
identifiers considered not usable as alignments, with a full mode that
additionally buffers each read's sequence and a memory-minimized mode that
keeps identifiers only (the implementation, `humann2.store.Reads`, is not
under src/). -/
structure Reads where
  minimize_memory_use : Bool
  ids : List PyStr
  seqs : List (PyStr × PyStr)
deriving DecidableEq

/-- A fresh Read Store in the requested storage mode. -/
def Reads.init (minimize : Bool) : Reads :=
  { minimize_memory_use := minimize, ids := [], seqs := [] }

/-- Modelled from the spec: tracking a read in the Read Store — the store
is a set of identifiers, so an already-tracked id is not duplicated, and
only full mode buffers the sequence (§3, §4.4). -/
def Reads.add (r : Reads) (id : PyStr) (seq : PyStr) : Reads :=
  if id ∈ r.ids then r
  else
    { r with
      ids := r.ids ++ [id]
      seqs := if r.minimize_memory_use then r.seqs else r.seqs ++ [(id, seq)] }

/-- Modelled from the spec: `count_reads()` — the number of tracked reads,
identical in both storage modes (§4.4). -/
def Reads.count_reads (r : Reads) : Nat := r.ids.length

/-- Modelled from the spec: the per-record reduction step of §4.2 — an
aligned record passing both thresholds inserts its Hit into the Alignment
Store and leaves the Read Store alone; a rejected, unaligned or
unparseable record tracks its query in the Read Store and leaves the
Alignment Store alone. -/
def runStep (cfg : Config) (fmt : AlignFormat) :
    Alignments × Reads → InputRecord → Alignments × Reads
  | (a, r), .aligned rec =>
    if accept cfg fmt rec then (a.add (mkHit cfg rec), r)
    else (a, r.add rec.query_id rec.seq)
  | (a, r), .unaligned q s => (a, r.add q s)
  | (a, r), .unparseable q s => (a, r.add q s)

/-- Modelled from the spec: the Stream Classifier
`unaligned_reads(alignment_file, alignments, unaligned_reads_store)` of
§4.2, restricted to its store-populating reduction loop — one sequential
pass over the parsed records of the input file, threading the two stores
(the output-file emission and raw-file deletion are I/O side effects out
of scope of the store model). -/
def unaligned_reads (cfg : Config) (fmt : AlignFormat) (input : List InputRecord)
    (a : Alignments) (r : Reads) : Alignments × Reads :=
  input.foldl (runStep cfg fmt) (a, r)

/-- The query identifier carried by an input record. -/
def queryId : InputRecord → PyStr
  | .aligned rec => rec.query_id
  | .unaligned q _ => q
  | .unparseable q _ => q

/-- The query identifier of a record that parsed (an unparseable line's
query is dropped from this view). -/
def parseableQuery : InputRecord → Option PyStr
  | .aligned rec => some rec.query_id
  | .unaligned q _ => some q
  | .unparseable _ _ => none

/-- Whether the record is an aligned record rejected by a threshold. -/
def isRejectedAligned (cfg : Config) (fmt : AlignFormat) : InputRecord → Bool
  | .aligned rec => !(accept cfg fmt rec)
  | .unaligned _ _ => false
  | .unparseable _ _ => false

/-- Whether the record never aligned (a genuinely unaligned read, or an
unparseable line whose query is treated as unaligned). -/
def isUnalignedRec : InputRecord → Bool
  | .aligned _ => false
  | .unaligned _ _ => true
  | .unparseable _ _ => true

/-- Whether processing the record tracks its query in the Read Store. -/
def addsToReads (cfg : Config) (fmt : AlignFormat) : InputRecord → Bool
  | .aligned rec => !(accept cfg fmt rec)
  | .unaligned _ _ => true
  | .unparseable _ _ => true

theorem unaligned_reads_cons (cfg : Config) (fmt : AlignFormat)
    (hd : InputRecord) (tl : List InputRecord) (a : Alignments) (r : Reads) :
    unaligned_reads cfg fmt (hd :: tl) a r =
      unaligned_reads cfg fmt tl (runStep cfg fmt (a, r) hd).1
        (runStep cfg fmt (a, r) hd).2 := by
  simp [unaligned_reads]

theorem runStep_aligned_pos {cfg : Config} {fmt : AlignFormat} {rec : AlignmentRecord}
    (a : Alignments) (r : Reads) (h : accept cfg fmt rec = true) :
    runStep cfg fmt (a, r) (.aligned rec) = (a.add (mkHit cfg rec), r) := by
  simp [runStep, h]

theorem runStep_aligned_neg {cfg : Config} {fmt : AlignFormat} {rec : AlignmentRecord}
    (a : Alignments) (r : Reads) (h : accept cfg fmt rec = false) :
    runStep cfg fmt (a, r) (.aligned rec) = (a, r.add rec.query_id rec.seq) := by
  simp [runStep, h]

theorem runStep_unaligned (cfg : Config) (fmt : AlignFormat)
    (a : Alignments) (r : Reads) (q s : PyStr) :
    runStep cfg fmt (a, r) (.unaligned q s) = (a, r.add q s) := rfl

theorem runStep_unparseable (cfg : Config) (fmt : AlignFormat)
    (a : Alignments) (r : Reads) (q s : PyStr) :
    runStep cfg fmt (a, r) (.unparseable q s) = (a, r.add q s) := rfl

theorem mem_flatten_addHitToStore (h x : Hit) :
    ∀ s : List (PyStr × List Hit),
      x ∈ (List.map Prod.snd (addHitToStore h s)).flatten ↔
        x ∈ (List.map Prod.snd s).flatten ∨ x = h := by
  intro s
  induction s with
  | nil => simp [addHitToStore]
  | cons p rest ih =>
    obtain ⟨r, hs⟩ := p
    by_cases hr : r = h.reference_id
    · rw [show addHitToStore h ((r, hs) :: rest) = (r, hs ++ [h]) :: rest from by
        simp [addHitToStore, hr]]
      simp only [List.map_cons, List.flatten_cons, List.mem_append, List.mem_singleton]
      tauto
    · rw [show addHitToStore h ((r, hs) :: rest) = (r, hs) :: addHitToStore h rest from by
        simp [addHitToStore, hr]]
      simp only [List.map_cons, List.flatten_cons, List.mem_append, ih]
      tauto

theorem mem_get_hit_list_add (a : Alignments) (h x : Hit) :
    x ∈ (a.add h).get_hit_list ↔ x ∈ a.get_hit_list ∨ x = h := by
  simpa [Alignments.add, Alignments.get_hit_list] using
    mem_flatten_addHitToStore h x a.store

theorem exists_aligned_cons (P : AlignmentRecord → Prop)
    (hd : InputRecord) (tl : List InputRecord) :
    (∃ rec, InputRecord.aligned rec ∈ hd :: tl ∧ P rec) ↔
      ((∃ rec, hd = InputRecord.aligned rec ∧ P rec) ∨
        (∃ rec, InputRecord.aligned rec ∈ tl ∧ P rec)) := by
  constructor
  · rintro ⟨rec, hmem, hP⟩
    rcases List.mem_cons.mp hmem with h | h
    · exact Or.inl ⟨rec, h.symm, hP⟩
    · exact Or.inr ⟨rec, h, hP⟩
  · rintro (⟨rec, heq, hP⟩ | ⟨rec, hmem, hP⟩)
    · exact ⟨rec, by rw [heq]; exact List.mem_cons_self _ _, hP⟩
    · exact ⟨rec, List.mem_cons_of_mem hd hmem, hP⟩

theorem run_fst_hits (cfg : Config) (fmt : AlignFormat) :
    ∀ (input : List InputRecord) (a : Alignments) (r : Reads) (x : Hit),
      x ∈ (unaligned_reads cfg fmt input a r).1.get_hit_list ↔
        (x ∈ a.get_hit_list ∨
          ∃ rec, InputRecord.aligned rec ∈ input ∧ accept cfg fmt rec = true ∧
            x = mkHit cfg rec) := by
  intro input
  induction input with
  | nil => intro a r x; simp [unaligned_reads]
  | cons hd tl ih =>
    intro a r x
    rw [unaligned_reads_cons]
    cases hd with
    | aligned rec =>
      cases hacc : accept cfg fmt rec with
      | true =>
        rw [runStep_aligned_pos a r hacc, exists_aligned_cons]
        rw [ih]
        rw [mem_get_hit_list_add]
        simp only [InputRecord.aligned.injEq, exists_eq_left', hacc]
        simp only [true_and]
        tauto
      | false =>
        rw [runStep_aligned_neg a r hacc, exists_aligned_cons]
        rw [ih]
        simp only [InputRecord.aligned.injEq, exists_eq_left', hacc]
        simp
    | unaligned q s =>
      rw [runStep_unaligned, exists_aligned_cons]
      rw [ih]
      simp
    | unparseable q s =>
      rw [runStep_unparseable, exists_aligned_cons]
      rw [ih]
      simp

/-- Insertion step of the identifier set held by a Read Store. -/
def insertId (q : PyStr) (acc : List PyStr) : List PyStr :=
  if q ∈ acc then acc else acc ++ [q]

theorem reads_add_ids (r : Reads) (id s : PyStr) :
    (r.add id s).ids = insertId id r.ids := by
  unfold Reads.add insertId
  split <;> rfl

/-- The identifier set accumulated over the input by the reduction pass. -/
def idsFold (cfg : Config) (fmt : AlignFormat)
    (input : List InputRecord) (acc : List PyStr) : List PyStr :=
  input.foldl
    (fun ac rec => if addsToReads cfg fmt rec then insertId (queryId rec) ac else ac)
    acc

theorem idsFold_cons (cfg : Config) (fmt : AlignFormat) (hd : InputRecord)
    (tl : List InputRecord) (acc : List PyStr) :
    idsFold cfg fmt (hd :: tl) acc =
      idsFold cfg fmt tl
        (if addsToReads cfg fmt hd then insertId (queryId hd) acc else acc) := rfl

theorem run_snd_ids (cfg : Config) (fmt : AlignFormat) :
    ∀ (input : List InputRecord) (a : Alignments) (r : Reads),
      (unaligned_reads cfg fmt input a r).2.ids = idsFold cfg fmt input r.ids := by
  intro input
  induction input with
  | nil => intro a r; rfl
  | cons hd tl ih =>
    intro a r
    rw [unaligned_reads_cons, idsFold_cons]
    cases hd with
    | aligned rec =>
      cases hacc : accept cfg fmt rec with
      | true =>
        rw [runStep_aligned_pos a r hacc, ih]
        simp [addsToReads, hacc]
      | false =>
        rw [runStep_aligned_neg a r hacc, ih, reads_add_ids]
        simp [addsToReads, hacc, queryId]
    | unaligned q s =>
      rw [runStep_unaligned, ih, reads_add_ids]
      simp [addsToReads, queryId]
    | unparseable q s =>
      rw [runStep_unparseable, ih, reads_add_ids]
      simp [addsToReads, queryId]

theorem mem_insertId_self (q : PyStr) (acc : List PyStr) : q ∈ insertId q acc := by
  unfold insertId
  split
  · assumption
  · simp

theorem mem_insertId_of_mem (q x : PyStr) (acc : List PyStr) (h : x ∈ acc) :
    x ∈ insertId q acc := by
  unfold insertId
  split
  · exact h
  · simp [h]

theorem mem_idsFold_of_mem (cfg : Config) (fmt : AlignFormat) :
    ∀ (input : List InputRecord) (acc : List PyStr) (x : PyStr),
      x ∈ acc → x ∈ idsFold cfg fmt input acc := by
  intro input
  induction input with
  | nil => intro acc x h; exact h
  | cons hd tl ih =>
    intro acc x h
    rw [idsFold_cons]
    apply ih
    split
    · exact mem_insertId_of_mem _ _ _ h
    · exact h

theorem mem_idsFold_of_adds (cfg : Config) (fmt : AlignFormat) :
    ∀ (input : List InputRecord) (acc : List PyStr) (rec : InputRecord),
      rec ∈ input → addsToReads cfg fmt rec = true →
      queryId rec ∈ idsFold cfg fmt input acc := by
  intro input
  induction input with
  | nil => intro acc rec h; simp at h
  | cons hd tl ih =>
    intro acc rec hmem hadds
    rw [idsFold_cons]
    rcases List.mem_cons.mp hmem with h | h
    · subst h
      rw [if_pos hadds]
      exact mem_idsFold_of_mem cfg fmt tl _ _ (mem_insertId_self _ _)
    · exact ih _ rec h hadds

theorem idsFold_length (cfg : Config) (fmt : AlignFormat) :
    ∀ (input : List InputRecord) (acc : List PyStr),
      (input.map queryId).Nodup → (∀ rec ∈ input, queryId rec ∉ acc) →
      (idsFold cfg fmt input acc).length =
        acc.length + (input.filter (addsToReads cfg fmt)).length := by
  intro input
  induction input with
  | nil => intro acc _ _; simp [idsFold]
  | cons hd tl ih =>
    intro acc hnd hdisj
    rw [idsFold_cons]
    have hnd2 : (queryId hd ∉ List.map queryId tl) ∧ (List.map queryId tl).Nodup := by
      rw [List.map_cons, List.nodup_cons] at hnd
      exact hnd
    cases hadds : addsToReads cfg fmt hd with
    | true =>
      rw [if_pos rfl]
      have hq : queryId hd ∉ acc := hdisj hd (List.mem_cons_self _ _)
      rw [insertId, if_neg hq]
      rw [ih (acc ++ [queryId hd]) hnd2.2 ?_]
      · simp [List.filter_cons, hadds]
        omega
      · intro rec hr
        intro hmem
        rcases List.mem_append.mp hmem with h1 | h1
        · exact hdisj rec (List.mem_cons_of_mem _ hr) h1
        · have : queryId rec = queryId hd := by simpa using h1
          exact hnd2.1 (this ▸ List.mem_map_of_mem queryId hr)
    | false =>
      rw [if_neg (by simp)]
      rw [ih acc hnd2.2 (fun rec hr => hdisj rec (List.mem_cons_of_mem _ hr))]
      simp [List.filter_cons, hadds]

theorem filter_adds_eq_split (cfg : Config) (fmt : AlignFormat) :
    ∀ input : List InputRecord,
      (input.filter (addsToReads cfg fmt)).length =
        (input.filter (isRejectedAligned cfg fmt)).length +
          (input.filter isUnalignedRec).length := by
  intro input
  induction input with
  | nil => rfl
  | cons hd tl ih =>
    cases hd with
    | aligned rec =>
      cases hacc : accept cfg fmt rec with
      | true =>
        simp [List.filter_cons, addsToReads, isRejectedAligned, isUnalignedRec, hacc, ih]
      | false =>
        simp [List.filter_cons, addsToReads, isRejectedAligned, isUnalignedRec, hacc, ih]
        omega
    | unaligned q s =>
      simp [List.filter_cons, addsToReads, isRejectedAligned, isUnalignedRec, ih]
      omega
    | unparseable q s =>
      simp [List.filter_cons, addsToReads, isRejectedAligned, isUnalignedRec, ih]
      omega

/-- C1 (spec-modelled): every Hit stored in the Alignment Store by one
reduction pass comes from an accepted alignment record of the input, and
its score is exactly `percent_identity ^ identity_power` for the percent
identity parsed from that record. -/
theorem hit_score_eq_identity_pow (cfg : Config) (fmt : AlignFormat)
    (input : List InputRecord) (x : Hit)
    (hx : x ∈ (unaligned_reads cfg fmt input .empty (Reads.init false)).1.get_hit_list) :
    ∃ rec, InputRecord.aligned rec ∈ input ∧ accept cfg fmt rec = true ∧
      x = mkHit cfg rec ∧ x.score = rec.percent_identity ^ cfg.identity_power := by
  rw [run_fst_hits] at hx
  rcases hx with hx | ⟨rec, hmem, hacc, hx⟩
  · simp [Alignments.empty, Alignments.get_hit_list] at hx
  · exact ⟨rec, hmem, hacc, hx, by rw [hx]; rfl⟩

/-- Witness for C1 at a one-record sam input accepted at identity 95
against threshold 90 with identity power 1. -/
theorem hit_score_eq_identity_pow_w :
    (mkHit ⟨1, 90, 1⟩ ⟨"r1".toList, "gene1".toList, 95, 20, 2, "ACGT".toList⟩ ∈
      (unaligned_reads ⟨1, 90, 1⟩ .sam
        [.aligned ⟨"r1".toList, "gene1".toList, 95, 20, 2, "ACGT".toList⟩]
        .empty (Reads.init false)).1.get_hit_list) ∧
    (∃ rec, InputRecord.aligned rec ∈
        [InputRecord.aligned
          (⟨"r1".toList, "gene1".toList, 95, 20, 2, "ACGT".toList⟩ : AlignmentRecord)] ∧
      accept ⟨1, 90, 1⟩ .sam rec = true ∧
      mkHit ⟨1, 90, 1⟩ ⟨"r1".toList, "gene1".toList, 95, 20, 2, "ACGT".toList⟩ =
        mkHit ⟨1, 90, 1⟩ rec ∧
      (mkHit ⟨1, 90, 1⟩ ⟨"r1".toList, "gene1".toList, 95, 20, 2, "ACGT".toList⟩).score =
        rec.percent_identity ^ (⟨1, 90, 1⟩ : Config).identity_power) :=
  ⟨by decide, hit_score_eq_identity_pow ⟨1, 90, 1⟩ .sam
    [.aligned ⟨"r1".toList, "gene1".toList, 95, 20, 2, "ACGT".toList⟩]
    (mkHit ⟨1, 90, 1⟩ ⟨"r1".toList, "gene1".toList, 95, 20, 2, "ACGT".toList⟩)
    (by decide)⟩

/-- C2 (spec-modelled): on the e-value-exempt sam format the whole result
of the reduction pass — in particular the contents and length of
`get_hit_list()` — is independent of the e-value threshold (two
configurations agreeing on the identity threshold and identity power but
differing arbitrarily in `evalue_threshold` produce identical stores),
while on the blast-style format every record with
`evalue > evalue_threshold` is rejected. -/
theorem evalue_exempt_format_invariance :
    (∀ (cfg1 cfg2 : Config) (input : List InputRecord) (a : Alignments) (r : Reads),
      cfg1.identity_threshold = cfg2.identity_threshold →
      cfg1.identity_power = cfg2.identity_power →
      unaligned_reads cfg1 .sam input a r = unaligned_reads cfg2 .sam input a r) ∧
    (∀ (cfg : Config) (rec : AlignmentRecord),
      rec.evalue > cfg.evalue_threshold → accept cfg .blastm8 rec = false) := by
  constructor
  · intro cfg1 cfg2 input a r h1 h2
    have haccept : ∀ rec, accept cfg1 .sam rec = accept cfg2 .sam rec := by
      intro rec
      unfold accept
      simp [AlignFormat.appliesEvalue, h1]
    have hmk : ∀ rec, mkHit cfg1 rec = mkHit cfg2 rec := by
      intro rec
      simp only [mkHit, h2]
    induction input generalizing a r with
    | nil => rfl
    | cons hd tl ih =>
      rw [unaligned_reads_cons, unaligned_reads_cons]
      have hstep : runStep cfg1 .sam (a, r) hd = runStep cfg2 .sam (a, r) hd := by
        cases hd with
        | aligned rec => simp [runStep, haccept rec, hmk rec]
        | unaligned q s => rfl
        | unparseable q s => rfl
      rw [hstep]
      exact ih _ _
  · intro cfg rec h
    unfold accept
    rw [if_pos ⟨rfl, h⟩]

/-- Witness for C2: tightening the e-value threshold from 1 to 0 leaves a
sam-format pass unchanged, and a blast-style record with e-value 2 above
threshold 1 is rejected. -/
theorem evalue_exempt_format_invariance_w :
    (unaligned_reads ⟨0, 90, 1⟩ .sam
        [.aligned ⟨"r1".toList, "gene1".toList, 95, 20, 2, "ACGT".toList⟩]
        .empty (Reads.init false) =
      unaligned_reads ⟨1, 90, 1⟩ .sam
        [.aligned ⟨"r1".toList, "gene1".toList, 95, 20, 2, "ACGT".toList⟩]
        .empty (Reads.init false)) ∧
    ((2 : ℚ) > (1 : ℚ)) ∧
    accept ⟨1, 90, 1⟩ .blastm8 ⟨"r1".toList, "gene1".toList, 95, 20, 2, "ACGT".toList⟩ =
      false :=
  ⟨evalue_exempt_format_invariance.1 ⟨0, 90, 1⟩ ⟨1, 90, 1⟩
      [.aligned ⟨"r1".toList, "gene1".toList, 95, 20, 2, "ACGT".toList⟩]
      .empty (Reads.init false) rfl rfl,
    by decide,
    evalue_exempt_format_invariance.2 ⟨1, 90, 1⟩
      ⟨"r1".toList, "gene1".toList, 95, 20, 2, "ACGT".toList⟩ (by decide)⟩

/-- C3 (spec-modelled): each parseable input record lands in exactly one
of the two populations — an accepted record inserts its Hit into the
Alignment Store and leaves the Read Store untouched, a rejected record
tracks its query in the Read Store and leaves the Alignment Store
untouched — and over a whole pass from empty stores no record is lost:
every accepted record's Hit is in the final hit list and every rejected
record's query is in the final Read Store. -/
theorem record_partition (cfg : Config) (fmt : AlignFormat) :
    (∀ (rec : AlignmentRecord) (a : Alignments) (r : Reads),
      accept cfg fmt rec = true →
      runStep cfg fmt (a, r) (.aligned rec) = (a.add (mkHit cfg rec), r)) ∧
    (∀ (rec : AlignmentRecord) (a : Alignments) (r : Reads),
      accept cfg fmt rec = false →
      runStep cfg fmt (a, r) (.aligned rec) = (a, r.add rec.query_id rec.seq)) ∧
    (∀ (input : List InputRecord) (rec : AlignmentRecord),
      InputRecord.aligned rec ∈ input →
      (accept cfg fmt rec = true →
        mkHit cfg rec ∈
          (unaligned_reads cfg fmt input .empty (Reads.init false)).1.get_hit_list) ∧
      (accept cfg fmt rec = false →
        rec.query_id ∈
          (unaligned_reads cfg fmt input .empty (Reads.init false)).2.ids)) := by
  refine ⟨fun rec a r h => runStep_aligned_pos a r h,
    fun rec a r h => runStep_aligned_neg a r h, ?_⟩
  intro input rec hmem
  constructor
  · intro hacc
    rw [run_fst_hits]
    exact Or.inr ⟨rec, hmem, hacc, rfl⟩
  · intro hacc
    rw [run_snd_ids]
    have hadds : addsToReads cfg fmt (.aligned rec) = true := by
      simp [addsToReads, hacc]
    exact mem_idsFold_of_adds cfg fmt input _ (.aligned rec) hmem hadds

/-- Witness for C3: an accepted record only extends the Alignment Store
and a rejected one (identity 80 below threshold 90) only the Read Store. -/
theorem record_partition_w :
    (accept ⟨1, 90, 1⟩ .sam ⟨"r1".toList, "gene1".toList, 95, 20, 2, "ACGT".toList⟩ =
      true) ∧
    (runStep ⟨1, 90, 1⟩ .sam (.empty, Reads.init false)
        (.aligned ⟨"r1".toList, "gene1".toList, 95, 20, 2, "ACGT".toList⟩) =
      (Alignments.empty.add
        (mkHit ⟨1, 90, 1⟩ ⟨"r1".toList, "gene1".toList, 95, 20, 2, "ACGT".toList⟩),
        Reads.init false)) ∧
    (accept ⟨1, 90, 1⟩ .sam ⟨"r2".toList, "gene2".toList, 80, 20, 2, "TTTT".toList⟩ =
      false) ∧
    "r2".toList ∈
      (unaligned_reads ⟨1, 90, 1⟩ .sam
        [.aligned ⟨"r2".toList, "gene2".toList, 80, 20, 2, "TTTT".toList⟩]
        .empty (Reads.init false)).2.ids :=
  ⟨by decide,
    (record_partition ⟨1, 90, 1⟩ .sam).1
      ⟨"r1".toList, "gene1".toList, 95, 20, 2, "ACGT".toList⟩ .empty (Reads.init false)
      (by decide),
    by decide,
    ((record_partition ⟨1, 90, 1⟩ .sam).2.2
      [.aligned ⟨"r2".toList, "gene2".toList, 80, 20, 2, "TTTT".toList⟩]
      ⟨"r2".toList, "gene2".toList, 80, 20, 2, "TTTT".toList⟩
      (by decide)).2 (by decide)⟩

/-- C4 (spec-modelled): every Hit stored by the reduction pass has
`normalized_length` equal to the parsed length annotation divided by 1000
when the reference token carries one, and equal to 1 when it carries
none. -/
theorem hit_normalized_length_spec (cfg : Config) (fmt : AlignFormat)
    (input : List InputRecord) (x : Hit)
    (hx : x ∈ (unaligned_reads cfg fmt input .empty (Reads.init false)).1.get_hit_list) :
    ∃ rec, InputRecord.aligned rec ∈ input ∧ accept cfg fmt rec = true ∧
      ((∃ n, (parse_reference_name rec.reference_token).2.2 = some n ∧
          x.normalized_length = (n : ℚ) / 1000) ∨
        ((parse_reference_name rec.reference_token).2.2 = none ∧
          x.normalized_length = 1)) := by
  rw [run_fst_hits] at hx
  rcases hx with hx | ⟨rec, hmem, hacc, hx⟩
  · simp [Alignments.empty, Alignments.get_hit_list] at hx
  · refine ⟨rec, hmem, hacc, ?_⟩
    cases hlen : (parse_reference_name rec.reference_token).2.2 with
    | some n => exact Or.inl ⟨n, rfl, by rw [hx]; simp [mkHit, hlen]⟩
    | none => exact Or.inr ⟨rfl, by rw [hx]; simp [mkHit, hlen]⟩

/-- Witness for C4 at a record whose reference token carries no length
annotation, so the stored normalized length defaults to 1. -/
theorem hit_normalized_length_spec_w :
    (mkHit ⟨1, 90, 1⟩ ⟨"r1".toList, "gene1".toList, 95, 20, 2, "ACGT".toList⟩ ∈
      (unaligned_reads ⟨1, 90, 1⟩ .sam
        [.aligned ⟨"r1".toList, "gene1".toList, 95, 20, 2, "ACGT".toList⟩]
        .empty (Reads.init false)).1.get_hit_list) ∧
    (∃ rec, InputRecord.aligned rec ∈
        [InputRecord.aligned
          (⟨"r1".toList, "gene1".toList, 95, 20, 2, "ACGT".toList⟩ : AlignmentRecord)] ∧
      accept ⟨1, 90, 1⟩ .sam rec = true ∧
      ((∃ n, (parse_reference_name rec.reference_token).2.2 = some n ∧
          (mkHit ⟨1, 90, 1⟩
            ⟨"r1".toList, "gene1".toList, 95, 20, 2, "ACGT".toList⟩).normalized_length =
            (n : ℚ) / 1000) ∨
        ((parse_reference_name rec.reference_token).2.2 = none ∧
          (mkHit ⟨1, 90, 1⟩
            ⟨"r1".toList, "gene1".toList, 95, 20, 2, "ACGT".toList⟩).normalized_length =
            1))) :=
  ⟨by decide, hit_normalized_length_spec ⟨1, 90, 1⟩ .sam
    [.aligned ⟨"r1".toList, "gene1".toList, 95, 20, 2, "ACGT".toList⟩]
    (mkHit ⟨1, 90, 1⟩ ⟨"r1".toList, "gene1".toList, 95, 20, 2, "ACGT".toList⟩)
    (by decide)⟩

/-- C5 (spec-modelled): the identity threshold is compared on the plain
0-100 percentage scale for every format, so with the threshold at 101
every record whose percent identity is attainable (at most 100) is
rejected: the final hit list is empty and every parseable query is
tracked by the Read Store. -/
theorem identity_threshold_101_rejects_all (cfg : Config) (fmt : AlignFormat)
    (input : List InputRecord) (r : Reads)
    (hthr : cfg.identity_threshold = 101)
    (hpid : ∀ rec : AlignmentRecord,
      InputRecord.aligned rec ∈ input → rec.percent_identity ≤ 100) :
    (unaligned_reads cfg fmt input .empty r).1.get_hit_list = [] ∧
    (∀ (rec : InputRecord) (q : PyStr), rec ∈ input → parseableQuery rec = some q →
      q ∈ (unaligned_reads cfg fmt input .empty r).2.ids) := by
  have hrej : ∀ rec : AlignmentRecord,
      InputRecord.aligned rec ∈ input → accept cfg fmt rec = false := by
    intro rec hmem
    unfold accept
    split
    · rfl
    · rw [if_pos (by
        rw [hthr]
        exact lt_of_le_of_lt (hpid rec hmem) (by norm_num))]
  constructor
  · rw [List.eq_nil_iff_forall_not_mem]
    intro x hx
    rw [run_fst_hits] at hx
    rcases hx with hx | ⟨rec, hmem, hacc, _⟩
    · simp [Alignments.empty, Alignments.get_hit_list] at hx
    · rw [hrej rec hmem] at hacc
      simp at hacc
  · intro rec q hmem hq
    rw [run_snd_ids]
    have hadds : addsToReads cfg fmt rec = true := by
      cases rec with
      | aligned a0 => simp [addsToReads, hrej a0 hmem]
      | unaligned _ _ => rfl
      | unparseable _ _ => rfl
    have hqid : queryId rec = q := by
      cases rec with
      | aligned a0 => simpa [parseableQuery, queryId] using hq
      | unaligned _ _ => simpa [parseableQuery, queryId] using hq
      | unparseable _ _ => simp [parseableQuery] at hq
    rw [← hqid]
    exact mem_idsFold_of_adds cfg fmt input _ rec hmem hadds

/-- Witness for C5 at identity threshold 101 over a one-record input with
percent identity 80. -/
theorem identity_threshold_101_rejects_all_w :
    ((⟨1, 101, 1⟩ : Config).identity_threshold = 101) ∧ ((80 : ℚ) ≤ 100) ∧
    (unaligned_reads ⟨1, 101, 1⟩ .sam
        [.aligned ⟨"r2".toList, "gene2".toList, 80, 20, 2, "TTTT".toList⟩]
        .empty (Reads.init false)).1.get_hit_list = [] :=
  ⟨rfl, by decide,
    (identity_threshold_101_rejects_all ⟨1, 101, 1⟩ .sam
      [.aligned ⟨"r2".toList, "gene2".toList, 80, 20, 2, "TTTT".toList⟩]
      (Reads.init false) rfl
      (by
        intro rec hmem
        have h1 : rec = ⟨"r2".toList, "gene2".toList, 80, 20, 2, "TTTT".toList⟩ := by
          simpa using hmem
        rw [h1]
        decide)).1⟩

/-- Well-formedness of an Alignment Store's backing map: reference keys
are distinct and every Hit sits under its own reference id. -/
def storeWF (s : List (PyStr × List Hit)) : Prop :=
  (s.map Prod.fst).Nodup ∧ ∀ p ∈ s, ∀ h ∈ p.2, h.reference_id = p.1

theorem wf_empty_store : storeWF ([] : List (PyStr × List Hit)) :=
  ⟨List.nodup_nil, by simp⟩

theorem keys_addHitToStore (h : Hit) :
    ∀ s : List (PyStr × List Hit),
      (addHitToStore h s).map Prod.fst =
        if h.reference_id ∈ s.map Prod.fst then s.map Prod.fst
        else s.map Prod.fst ++ [h.reference_id] := by
  intro s
  induction s with
  | nil => simp [addHitToStore]
  | cons p rest ih =>
    obtain ⟨r, hs⟩ := p
    by_cases hr : r = h.reference_id
    · subst hr
      simp [addHitToStore]
    · rw [show addHitToStore h ((r, hs) :: rest) = (r, hs) :: addHitToStore h rest from by
        simp [addHitToStore, hr]]
      rw [List.map_cons, ih, List.map_cons]
      by_cases hmem : h.reference_id ∈ List.map Prod.fst rest
      · rw [if_pos hmem, if_pos (List.mem_cons_of_mem _ hmem)]
      · rw [if_neg hmem, if_neg ?_, List.cons_append]
        intro hc
        rcases List.mem_cons.mp hc with h1 | h1
        · exact hr h1.symm
        · exact hmem h1

theorem wf_addHitToStore (h : Hit) :
    ∀ s : List (PyStr × List Hit), storeWF s → storeWF (addHitToStore h s) := by
  intro s
  induction s with
  | nil =>
    intro _
    refine ⟨by simp [addHitToStore], ?_⟩
    intro p hp h2 hh2
    rw [show addHitToStore h [] = [(h.reference_id, [h])] from rfl] at hp
    rcases List.mem_cons.mp hp with h1 | h1
    · subst h1
      rw [List.mem_singleton] at hh2
      rw [hh2]
    · simp at h1
  | cons q rest ih =>
    obtain ⟨r, hs⟩ := q
    intro hwf
    have hkeys := hwf.1
    rw [List.map_cons, List.nodup_cons] at hkeys
    have hwfrest : storeWF rest :=
      ⟨hkeys.2, fun p hp => hwf.2 p (List.mem_cons_of_mem _ hp)⟩
    by_cases hr : r = h.reference_id
    · rw [show addHitToStore h ((r, hs) :: rest) = (r, hs ++ [h]) :: rest from by
        simp [addHitToStore, hr]]
      constructor
      · simpa using hwf.1
      · intro p hp h2 hh2
        rcases List.mem_cons.mp hp with h1 | h1
        · subst h1
          rcases List.mem_append.mp hh2 with h3 | h3
          · exact hwf.2 (r, hs) (List.mem_cons_self _ _) h2 h3
          · rw [List.mem_singleton] at h3
            rw [h3, hr]
        · exact hwf.2 p (List.mem_cons_of_mem _ h1) h2 hh2
    · rw [show addHitToStore h ((r, hs) :: rest) = (r, hs) :: addHitToStore h rest from by
        simp [addHitToStore, hr]]
      have ihw := ih hwfrest
      constructor
      · rw [List.map_cons, List.nodup_cons]
        refine ⟨?_, ihw.1⟩
        rw [keys_addHitToStore]
        split
        · exact hkeys.1
        · intro hc
          rcases List.mem_append.mp hc with h1 | h1
          · exact hkeys.1 h1
          · rw [List.mem_singleton] at h1
            exact hr h1
      · intro p hp h2 hh2
        rcases List.mem_cons.mp hp with h1 | h1
        · subst h1
          exact hwf.2 (r, hs) (List.mem_cons_self _ _) h2 hh2
        · exact ihw.2 p h1 h2 hh2

theorem hitsForGene_eq_filter (x : PyStr) :
    ∀ s : List (PyStr × List Hit), storeWF s →
      hitsForGeneAux x s =
        (List.map Prod.snd s).flatten.filter (fun h => h.reference_id = x) := by
  intro s
  induction s with
  | nil => intro _; rfl
  | cons p rest ih =>
    obtain ⟨r, hs⟩ := p
    intro hwf
    have hkeys := hwf.1
    rw [List.map_cons, List.nodup_cons] at hkeys
    have hwfrest : storeWF rest :=
      ⟨hkeys.2, fun p hp => hwf.2 p (List.mem_cons_of_mem _ hp)⟩
    rw [List.map_cons, List.flatten_cons, List.filter_append]
    by_cases hr : r = x
    · rw [show hitsForGeneAux x ((r, hs) :: rest) = hs from by simp [hitsForGeneAux, hr]]
      have h1 : hs.filter (fun h => h.reference_id = x) = hs := by
        rw [List.filter_eq_self]
        intro h2 hh2
        have := hwf.2 (r, hs) (List.mem_cons_self _ _) h2 hh2
        simp [this, hr]
      have h2 : (List.map Prod.snd rest).flatten.filter
          (fun h => h.reference_id = x) = [] := by
        rw [List.filter_eq_nil_iff]
        intro h2 hh2
        rcases List.mem_flatten.mp hh2 with ⟨l, hl, hh⟩
        rcases List.mem_map.mp hl with ⟨p2, hp2, hpl⟩
        have hid : h2.reference_id = p2.1 := hwfrest.2 p2 hp2 h2 (hpl ▸ hh)
        simp only [decide_eq_true_eq]
        intro hx
        apply hkeys.1
        show r ∈ List.map Prod.fst rest
        rw [hr, ← hx, hid]
        exact List.mem_map_of_mem Prod.fst hp2
      rw [h1, h2, List.append_nil]
    · rw [show hitsForGeneAux x ((r, hs) :: rest) = hitsForGeneAux x rest from by
        simp [hitsForGeneAux, hr]]
      have h1 : hs.filter (fun h => h.reference_id = x) = [] := by
        rw [List.filter_eq_nil_iff]
        intro h2 hh2
        have := hwf.2 (r, hs) (List.mem_cons_self _ _) h2 hh2
        simp [this, hr]
      rw [h1, ih hwfrest, List.nil_append]

theorem wf_foldl_add :
    ∀ (hs : List Hit) (a : Alignments), storeWF a.store →
      storeWF ((hs.foldl Alignments.add a).store) := by
  intro hs
  induction hs with
  | nil => intro a h; exact h
  | cons h0 rest ih =>
    intro a hwf
    rw [List.foldl_cons]
    exact ih _ (wf_addHitToStore h0 _ hwf)

/-- C6 (spec-modelled): in every state of the Alignment Store reachable by
insertions from empty, `hits_for_gene(X)` is exactly the subsequence of
`get_hit_list()` whose reference id equals `X` (empty when none), and
`bug_list()` holds exactly the distinct organisms of `get_hit_list()`,
each once. -/
theorem store_accessor_contracts (hs : List Hit) (x : PyStr) :
    (hs.foldl Alignments.add Alignments.empty).hits_for_gene x =
      (hs.foldl Alignments.add Alignments.empty).get_hit_list.filter
        (fun h => h.reference_id = x) ∧
    (hs.foldl Alignments.add Alignments.empty).bug_list.Nodup ∧
    (∀ o, o ∈ (hs.foldl Alignments.add Alignments.empty).bug_list ↔
      o ∈ (hs.foldl Alignments.add Alignments.empty).get_hit_list.map Hit.organism) := by
  have hwf : storeWF ((hs.foldl Alignments.add Alignments.empty).store) :=
    wf_foldl_add hs Alignments.empty wf_empty_store
  refine ⟨?_, List.nodup_dedup _, fun o => List.mem_dedup⟩
  exact hitsForGene_eq_filter x _ hwf

/-- C7 (spec-modelled): a full-mode and a memory-minimized Read Store
populated by the same reduction pass over the same input report the same
`count_reads()`, and (for inputs whose query ids are pairwise distinct,
the Read Store being a set of identifiers) that count equals the number
of records rejected by threshold plus the genuinely unaligned reads
(unparseable lines being treated as unaligned). -/
theorem read_store_mode_agreement (cfg : Config) (fmt : AlignFormat)
    (input : List InputRecord) :
    ((unaligned_reads cfg fmt input .empty (Reads.init false)).2.count_reads =
      (unaligned_reads cfg fmt input .empty (Reads.init true)).2.count_reads) ∧
    ((input.map queryId).Nodup →
      (unaligned_reads cfg fmt input .empty (Reads.init false)).2.count_reads =
        (input.filter (isRejectedAligned cfg fmt)).length +
          (input.filter isUnalignedRec).length) := by
  have h0 : (Reads.init false).ids = [] := rfl
  have h1 : (Reads.init true).ids = [] := rfl
  constructor
  · unfold Reads.count_reads
    rw [run_snd_ids, run_snd_ids, h0, h1]
  · intro hnd
    unfold Reads.count_reads
    rw [run_snd_ids, h0]
    rw [idsFold_length cfg fmt input [] hnd (by simp)]
    rw [filter_adds_eq_split]
    simp

/-- Witness for C7 over a two-record input (one rejected aligned record,
one genuinely unaligned read) with distinct query ids. -/
theorem read_store_mode_agreement_w :
    (([InputRecord.aligned
        (⟨"r2".toList, "gene2".toList, 80, 20, 2, "TTTT".toList⟩ : AlignmentRecord),
      InputRecord.unaligned "r3".toList "GGGG".toList].map queryId).Nodup) ∧
    (unaligned_reads ⟨1, 90, 1⟩ .sam
        [.aligned ⟨"r2".toList, "gene2".toList, 80, 20, 2, "TTTT".toList⟩,
          .unaligned "r3".toList "GGGG".toList]
        .empty (Reads.init false)).2.count_reads = 1 + 1 :=
  ⟨by decide,
    (read_store_mode_agreement ⟨1, 90, 1⟩ .sam
      [.aligned ⟨"r2".toList, "gene2".toList, 80, 20, 2, "TTTT".toList⟩,
        .unaligned "r3".toList "GGGG".toList]).2 (by decide)⟩

/-- C8 (spec-modelled): the Annotation Parser is a total function of the
reference token — it never raises — and a token in an unknown or
malformed annotation convention yields the defaults: organism
"unclassified" and no length, so any Hit built from such a token has
normalized length 1. -/
theorem parser_defaults_on_unknown (token : PyStr) (_hne : token ≠ [])
    (hunk : unknownConvention token = true) :
    (parse_reference_name token).2.1 = unclassified ∧
    (parse_reference_name token).2.2 = none ∧
    (∀ (cfg : Config) (rec : AlignmentRecord), rec.reference_token = token →
      (mkHit cfg rec).normalized_length = 1) := by
  have key : parse_reference_name token = (token, unclassified, none) := by
    rcases hsplit : splitOnChar '|' token with _ | ⟨g, _ | ⟨l, _ | ⟨o, _ | ⟨r4, rest⟩⟩⟩⟩
    · simp [parse_reference_name, hsplit]
    · simp [unknownConvention, hsplit] at hunk
    · have hnone : charsToNat l = none := by
        have h2 := hunk
        simp [unknownConvention, hsplit, Option.isNone_iff_eq_none] at h2
        exact h2
      simp [parse_reference_name, hsplit, hnone]
    · have hnone : charsToNat l = none := by
        have h2 := hunk
        simp [unknownConvention, hsplit, Option.isNone_iff_eq_none] at h2
        exact h2
      simp [parse_reference_name, hsplit, hnone]
    · simp [parse_reference_name, hsplit]
  refine ⟨by rw [key], by rw [key], ?_⟩
  intro cfg rec hrt
  simp [mkHit, hrt, key]

/-- Witness for C8 at the malformed token "abc|xyz" (a two-field token
whose second field is not numeric). -/
theorem parser_defaults_on_unknown_w :
    ("abc|xyz".toList ≠ ([] : List Char)) ∧
    (unknownConvention "abc|xyz".toList = true) ∧
    (parse_reference_name "abc|xyz".toList).2.1 = unclassified :=
  ⟨by decide, by decide,
    (parser_defaults_on_unknown "abc|xyz".toList (by decide) (by decide)).1⟩

end Humann
